import Mathlib

/-!
Verification of the Morse-decoding core of the morsepractice repository.

The TypeScript source (src/lib/morse.ts and src/routes/MorseInput.svelte) is
shallowly embedded below:

* the dense code tree built by `installMap` is represented as a function
  `Nat → Option Char` (a JavaScript array whose cells are `null`
  or a character; reads outside the written cells yield `none`, matching
  `undefined`/`null` being falsy);
* JavaScript numbers used for times and durations are embedded as rationals
  (`Rat`); every concrete value appearing in the claims (1200/20 = 60 and the
  PARIS computation) is exactly representable as an IEEE double, so the
  rational and floating evaluations agree on them;
* methods that mutate `this` become functions from the engine state to a pair
  of the new state and the list of callback events fired during the call;
* `throw` becomes `Except.error`.
-/

set_option maxRecDepth 8000

namespace Morse

/-- Source method commitDot: one dot step in the dense tree, `i ↦ 2i+1`. -/
def commitDot (i : Nat) : Nat := 2 * i + 1

/-- Source method commitDash: one dash step in the dense tree, `i ↦ 2i+2`. -/
def commitDash (i : Nat) : Nat := 2 * i + 2

/-- A symbol table, as the association list of (character, code) entries of
the source object `DEFAULT_MORSE` (codes are lists of symbol characters). -/
abbrev MorseMap := List (Char × List Char)

/-- The default symbol table of src/lib/morse.ts (the active, uncommented
entries, in declaration order). -/
def DEFAULT_MORSE : MorseMap :=
  [ ('A', ['.', '-']), ('B', ['-', '.', '.', '.']), ('C', ['-', '.', '-', '.']),
    ('D', ['-', '.', '.']), ('E', ['.']), ('F', ['.', '.', '-', '.']),
    ('G', ['-', '-', '.']), ('H', ['.', '.', '.', '.']), ('I', ['.', '.']),
    ('J', ['.', '-', '-', '-']), ('K', ['-', '.', '-']), ('L', ['.', '-', '.', '.']),
    ('M', ['-', '-']), ('N', ['-', '.']), ('O', ['-', '-', '-']),
    ('P', ['.', '-', '-', '.']), ('Q', ['-', '-', '.', '-']), ('R', ['.', '-', '.']),
    ('S', ['.', '.', '.']), ('T', ['-']), ('U', ['.', '.', '-']),
    ('V', ['.', '.', '.', '-']), ('W', ['.', '-', '-']), ('X', ['-', '.', '.', '-']),
    ('Y', ['-', '.', '-', '-']), ('Z', ['-', '-', '.', '.']),
    ('0', ['-', '-', '-', '-', '-']), ('1', ['.', '-', '-', '-', '-']),
    ('2', ['.', '.', '-', '-', '-']), ('3', ['.', '.', '.', '-', '-']),
    ('4', ['.', '.', '.', '.', '-']), ('5', ['.', '.', '.', '.', '.']),
    ('6', ['-', '.', '.', '.', '.']), ('7', ['-', '-', '.', '.', '.']),
    ('8', ['-', '-', '-', '.', '.']), ('9', ['-', '-', '-', '-', '.']),
    ('.', ['.', '-', '.', '-', '.', '-']), (',', ['-', '-', '.', '.', '-', '-']),
    ('?', ['.', '.', '-', '-', '.', '.']),
    (Char.ofNat 39, ['.', '-', '-', '-', '-', '.']),
    ('-', ['-', '.', '.', '.', '.', '-']),
    (';', ['-', '.', '-', '.', '-', '.']) ]

/-- The symbol walk of `installMap`/`decode`: starting from index `i`, follow
each symbol of the code (dot `i ↦ 2i+1`, dash `i ↦ 2i+2`), throwing on any
other symbol, exactly as the per-symbol loop of the source. -/
def codeIndexFrom (i : Nat) : List Char → Except String Nat
  | [] => Except.ok i
  | c :: cs =>
      if c == '.' then codeIndexFrom (commitDot i) cs
      else if c == '-' then codeIndexFrom (commitDash i) cs
      else Except.error "invalid Morse symbol"

/-- The full walk of a code from the root (index 0). -/
def codeIndex (code : List Char) : Except String Nat := codeIndexFrom 0 code

/-- A code is valid when all its symbols are dots or dashes. -/
def validCode (code : List Char) : Bool := code.all (fun c => c == '.' || c == '-')

/-- Total version of the symbol walk, defined on valid codes (on which it
agrees with `codeIndexFrom`). -/
def walkFrom (i : Nat) (code : List Char) : Nat :=
  code.foldl (fun j c => if c == '.' then commitDot j else commitDash j) i

/-- Total version of `codeIndex`. -/
def walkIndex (code : List Char) : Nat := walkFrom 0 code

/-- The entry loop of `installMap`: insert each (character, code) entry into
the tree at the index its code walks to, overwriting whatever was there
(the source logs a warning on a duplicate, which has no semantic effect),
aborting with the exception at the first invalid symbol. -/
def insertEntries (t : Nat → Option Char) : MorseMap → Except String (Nat → Option Char)
  | [] => Except.ok t
  | e :: es =>
      match codeIndex e.2 with
      | Except.error msg => Except.error msg
      | Except.ok idx => insertEntries (fun j => if j = idx then some e.1 else t j) es

/-- Source method installMap: build the dense tree locally from an empty
(all-`null`) array and return it; an invalid symbol aborts the build. -/
def installMap (map : MorseMap) : Except String (Nat → Option Char) :=
  insertEntries (fun _ => none) map

/-- The local `maxLen` of `installMap`: the largest code length in the table. -/
def maxCodeLen (map : MorseMap) : Nat :=
  (map.map (fun e => e.2.length)).foldl max 0

/-- The local `size` of `installMap`: the length `2^(maxLen+1)` of the dense array. -/
def treeSize (map : MorseMap) : Nat := 2 ^ (maxCodeLen map + 1)

/-- Accumulator form of the last-write-wins lookup: fold the entries over a
starting accumulator, replacing it whenever an entry walks to `j`. -/
def lookupFrom (acc : Option Char) (es : MorseMap) (j : Nat) : Option Char :=
  es.foldl (fun a e => if j = walkIndex e.2 then some e.1 else a) acc

/-- Which character ends up stored at index `j` after processing the whole
table: the last entry whose code walks to `j`, if any (last write wins). -/
def lookupLast (es : MorseMap) (j : Nat) : Option Char :=
  lookupFrom none es j

/-- The tree installed by the constructor (`installMap(DEFAULT_MORSE)`). -/
def defaultTree : Nat → Option Char :=
  (installMap DEFAULT_MORSE).toOption.getD (fun _ => none)

/-- The decoding state shared by all engines: the installed tree and the
current traversal index of the in-progress character. -/
structure DecState where
  tree : Nat → Option Char
  index : Nat

/-- Source method resetIndex: read the character stored at the current
index, zero the index, and return the character read. -/
def resetIndex (s : DecState) : Option Char × DecState :=
  (s.tree s.index, { s with index := 0 })

/-- The symbol-collecting loop of `showIndex`: while the index is positive,
record a dot when it is odd and a dash when it is even, then step to the
parent `(index - 1) / 2`; symbols come out leaf-first, as in the source. -/
def pathSymbols : Nat → List Char
  | 0 => []
  | i + 1 => (if (i + 1) % 2 = 1 then '.' else '-') :: pathSymbols (i / 2)
decreasing_by exact Nat.lt_succ_of_le (Nat.div_le_self i 2)

/-- Source method showIndex, the partial-code display: the character stored
at the current index (a question mark placeholder when none), a space, and
the dot/dash string walked so far (the collected symbols, reversed to
root-first order).  The string is embedded as its list of characters; the
method only reads `this.index` into a local variable, so the state comes
back unchanged. -/
def showIndex (s : DecState) : List Char × DecState :=
  (((s.tree s.index).getD '?') :: ' ' :: (pathSymbols s.index).reverse, s)

/-- A commit step abstracted over which kind it is: `true` is `commitDot`,
`false` is `commitDash`. -/
def commitStep (i : Nat) (b : Bool) : Nat := if b then commitDot i else commitDash i

/-- A sequence of commits applied in order from index `i`. -/
def applyCommits (i : Nat) (cs : List Bool) : Nat := cs.foldl commitStep i

/-- The display symbol of a commit: a dot for `commitDot`, a dash for
`commitDash`. -/
def symOfBool (b : Bool) : Char := if b then '.' else '-'

/-- C1: every (character, code) entry of the default table round-trips:
walking the code by `commitDot`/`commitDash` from index 0 over the tree
installed from `DEFAULT_MORSE` and then calling `resetIndex` returns exactly
the original character and leaves the index at 0. -/
theorem c1_default_roundtrip :
    ∀ p ∈ DEFAULT_MORSE,
      (resetIndex ⟨defaultTree, walkIndex p.2⟩).1 = some p.1 ∧
      (resetIndex ⟨defaultTree, walkIndex p.2⟩).2.index = 0 := by
  decide

/-- C1 witness: the round-trip at the concrete entry for the letter A. -/
theorem c1_default_roundtrip_witness :
    (('A', ['.', '-']) ∈ DEFAULT_MORSE) ∧
      (resetIndex ⟨defaultTree, walkIndex ['.', '-']⟩).1 = some 'A' ∧
      (resetIndex ⟨defaultTree, walkIndex ['.', '-']⟩).2.index = 0 :=
  ⟨by decide, c1_default_roundtrip ('A', ['.', '-']) (by decide)⟩

lemma pathSymbols_zero : pathSymbols 0 = [] := by
  rw [pathSymbols]

lemma pathSymbols_succ (i : Nat) :
    pathSymbols (i + 1) = (if (i + 1) % 2 = 1 then '.' else '-') :: pathSymbols (i / 2) := by
  rw [pathSymbols]

lemma pathSymbols_commitDot (i : Nat) :
    pathSymbols (commitDot i) = '.' :: pathSymbols i := by
  show pathSymbols (2 * i + 1) = '.' :: pathSymbols i
  rw [pathSymbols_succ (2 * i), if_pos (by omega), Nat.mul_div_cancel_left i (by norm_num)]

lemma pathSymbols_commitDash (i : Nat) :
    pathSymbols (commitDash i) = '-' :: pathSymbols i := by
  show pathSymbols (2 * i + 1 + 1) = '-' :: pathSymbols i
  rw [pathSymbols_succ (2 * i + 1), if_neg (by omega)]
  have h : (2 * i + 1) / 2 = i := by omega
  rw [h]

lemma pathSymbols_applyCommits (cs : List Bool) :
    ∀ i, pathSymbols (applyCommits i cs) = (cs.map symOfBool).reverse ++ pathSymbols i := by
  induction cs with
  | nil => intro i; simp [applyCommits]
  | cons b cs ih =>
      intro i
      have : applyCommits i (b :: cs) = applyCommits (commitStep i b) cs := by
        simp [applyCommits]
      rw [this, ih (commitStep i b)]
      cases b <;>
        simp [commitStep, symOfBool, pathSymbols_commitDot, pathSymbols_commitDash]

/-- C2 counterexample: the claim says the partial-code display after N
commits is a string of length N, but after a single `commitDot` on the
default tree `showIndex` returns the three-character string "E ." (decoded
character, space, then the committed symbols), not a one-character string. -/
theorem c2_counterexample :
    (showIndex ⟨defaultTree, applyCommits 0 [true]⟩).1 = ['E', ' ', '.'] ∧
    (showIndex ⟨defaultTree, applyCommits 0 [true]⟩).1.length = 3 ∧
    ¬ (showIndex ⟨defaultTree, applyCommits 0 [true]⟩).1.length = 1 := by
  have hc : applyCommits 0 [true] = 1 := by decide
  have hp : pathSymbols 1 = ['.'] := by
    have := pathSymbols_commitDot 0
    simpa [commitDot, pathSymbols_zero] using this
  have ht : defaultTree 1 = some 'E' := by decide
  refine ⟨?_, ?_, ?_⟩ <;> simp [showIndex, hc, hp, ht]

/-- C2 amended: after a sequence of N commits from index 0, `showIndex`
returns the decoded character at the current index (or a question mark),
then a space, then exactly the N committed symbols in commit order (dot for
`commitDot`, dash for `commitDash`) — a string of length N + 2 whose tail
after the first two characters is the committed sequence; and it is
idempotent: it leaves the state unchanged and a repeated call returns the
same string. -/
theorem c2_show_index_amended (tree : Nat → Option Char) (cs : List Bool) :
    (showIndex ⟨tree, applyCommits 0 cs⟩).1 =
      ((tree (applyCommits 0 cs)).getD '?') :: ' ' :: cs.map symOfBool ∧
    (showIndex ⟨tree, applyCommits 0 cs⟩).1.length = cs.length + 2 ∧
    (showIndex ⟨tree, applyCommits 0 cs⟩).2 = ⟨tree, applyCommits 0 cs⟩ ∧
    (showIndex ((showIndex ⟨tree, applyCommits 0 cs⟩).2)).1 =
      (showIndex ⟨tree, applyCommits 0 cs⟩).1 := by
  have hp : pathSymbols (applyCommits 0 cs) = (cs.map symOfBool).reverse := by
    simpa [pathSymbols_zero] using pathSymbols_applyCommits cs 0
  refine ⟨?_, ?_, rfl, rfl⟩ <;> simp [showIndex, hp]

/-- Source method MorseDecodeWinder.input: on a press, commit a dot when
the key is the dot key and a dash otherwise; releases are ignored. -/
def winderInput (s : DecState) (key : Char) (pressed : Bool) : DecState :=
  if pressed then
    if key == '.' then { s with index := commitDot s.index }
    else { s with index := commitDash s.index }
  else s

lemma applyCommits_add_two_le (cs : List Bool) :
    ∀ i, applyCommits i cs + 2 ≤ (i + 2) * 2 ^ cs.length := by
  induction cs with
  | nil => intro i; simp [applyCommits]
  | cons b cs ih =>
      intro i
      have h1 : applyCommits i (b :: cs) = applyCommits (commitStep i b) cs := by
        simp [applyCommits]
      have h3 : commitStep i b + 2 ≤ 2 * (i + 2) := by
        cases b <;> simp [commitStep, commitDot, commitDash] <;> omega
      calc applyCommits i (b :: cs) + 2
          ≤ (commitStep i b + 2) * 2 ^ cs.length := by rw [h1]; exact ih (commitStep i b)
        _ ≤ (2 * (i + 2)) * 2 ^ cs.length := Nat.mul_le_mul_right _ h3
        _ = (i + 2) * 2 ^ (b :: cs).length := by
              simp [List.length_cons, pow_succ]; ring

/-- C6 counterexample: the claimed invariant that the traversal index always
stays in [0, size) fails — seven consecutive dash presses on the winder
engine (a reachable operation sequence, with no reset in between) drive the
index to 254, outside the default tree size 2^(6+1) = 128. -/
theorem c6_counterexample :
    ((List.replicate 7 '-').foldl (fun s k => winderInput s k true)
        ⟨defaultTree, 0⟩).index = 254 ∧
    treeSize DEFAULT_MORSE = 128 ∧
    ¬ (((List.replicate 7 '-').foldl (fun s k => winderInput s k true)
        ⟨defaultTree, 0⟩).index < treeSize DEFAULT_MORSE) := by
  decide

/-- C6 amended: the traversal index stays inside the dense array (index 0
meaning no partial code) as long as at most `maxLen` commits happen since
the last reset: any commit sequence of length at most `maxCodeLen map`
applied from index 0 lands strictly below `treeSize map`; `resetIndex`
always returns the index to 0, and 0 is always a valid position. -/
theorem c6_index_bound_amended (map : MorseMap) (cs : List Bool)
    (h : cs.length ≤ maxCodeLen map) :
    applyCommits 0 cs < treeSize map ∧
    (∀ s : DecState, (resetIndex s).2.index = 0) ∧
    0 < treeSize map := by
  refine ⟨?_, fun s => rfl, Nat.pos_pow_of_pos _ (by norm_num)⟩
  have h1 := applyCommits_add_two_le cs 0
  have h2 : (2 : Nat) ^ (cs.length + 1) ≤ 2 ^ (maxCodeLen map + 1) :=
    Nat.pow_le_pow_right (by norm_num) (by omega)
  have h3 : (0 + 2) * 2 ^ cs.length = 2 ^ (cs.length + 1) := by
    simp [pow_succ]; ring
  rw [h3] at h1
  unfold treeSize
  omega

/-- C6 witness: six dash commits (the longest code length of the default
table) stay below the default tree size. -/
theorem c6_index_bound_witness :
    (List.replicate 6 false).length ≤ maxCodeLen DEFAULT_MORSE ∧
    (applyCommits 0 (List.replicate 6 false) < treeSize DEFAULT_MORSE ∧
     (∀ s : DecState, (resetIndex s).2.index = 0) ∧
     0 < treeSize DEFAULT_MORSE) :=
  ⟨by decide, c6_index_bound_amended DEFAULT_MORSE (List.replicate 6 false) (by decide)⟩

lemma codeIndexFrom_isOk (code : List Char) :
    ∀ i, (codeIndexFrom i code).isOk = validCode code := by
  induction code with
  | nil => intro i; simp [codeIndexFrom, validCode, Except.isOk, Except.toBool]
  | cons c cs ih =>
      intro i
      by_cases hd : c = '.'
      · subst hd; simp [codeIndexFrom, validCode, List.all_cons, ih]
      · by_cases hh : c = '-'
        · subst hh; simp [codeIndexFrom, validCode, List.all_cons, ih]
        · simp [codeIndexFrom, hd, hh, validCode, List.all_cons,
            Except.isOk, Except.toBool]

lemma codeIndexFrom_valid (code : List Char) :
    ∀ i, validCode code = true → codeIndexFrom i code = Except.ok (walkFrom i code) := by
  induction code with
  | nil => intro i _; simp [codeIndexFrom, walkFrom]
  | cons c cs ih =>
      intro i hv
      rcases (by simpa [validCode, List.all_cons] using hv :
        (c == '.' || c == '-') = true ∧ validCode cs = true) with ⟨hc, hcs⟩
      by_cases hd : c = '.'
      · subst hd
        have hstep : codeIndexFrom i ('.' :: cs) = codeIndexFrom (commitDot i) cs := rfl
        have hw : walkFrom i ('.' :: cs) = walkFrom (commitDot i) cs := rfl
        rw [hstep, hw]
        exact ih _ hcs
      · have hh : c = '-' := by
          cases (Bool.or_eq_true_iff.mp hc) with
          | inl h => exact absurd (eq_of_beq h) hd
          | inr h => exact eq_of_beq h
        subst hh
        have hstep : codeIndexFrom i ('-' :: cs) = codeIndexFrom (commitDash i) cs := rfl
        have hw : walkFrom i ('-' :: cs) = walkFrom (commitDash i) cs := rfl
        rw [hstep, hw]
        exact ih _ hcs

lemma insertEntries_isOk (es : MorseMap) :
    ∀ t, (insertEntries t es).isOk = es.all (fun e => validCode e.2) := by
  induction es with
  | nil => intro t; simp [insertEntries, Except.isOk, Except.toBool]
  | cons e es ih =>
      intro t
      rcases hco : codeIndex e.2 with msg | idx
      · have hv : validCode e.2 = false := by
          have h1 := codeIndexFrom_isOk e.2 0
          rw [show codeIndexFrom 0 e.2 = codeIndex e.2 from rfl, hco] at h1
          simpa [Except.isOk, Except.toBool] using h1.symm
        simp [insertEntries, hco, hv, List.all_cons, Except.isOk, Except.toBool]
      · have hv : validCode e.2 = true := by
          have h1 := codeIndexFrom_isOk e.2 0
          rw [show codeIndexFrom 0 e.2 = codeIndex e.2 from rfl, hco] at h1
          simpa [Except.isOk, Except.toBool] using h1.symm
        simp [insertEntries, hco, hv, List.all_cons, ih]

lemma lookupFrom_elim (es : MorseMap) (j : Nat) :
    ∀ acc, lookupFrom acc es j = Option.elim (lookupLast es j) acc some := by
  induction es with
  | nil => intro acc; simp [lookupFrom, lookupLast]
  | cons e es ih =>
      intro acc
      have hstep : ∀ a, lookupFrom a (e :: es) j =
          lookupFrom (if j = walkIndex e.2 then some e.1 else a) es j := by
        intro a; simp [lookupFrom]
      rw [lookupLast, hstep, hstep, ih, ih]
      cases h : lookupLast es j <;> by_cases hp : j = walkIndex e.2 <;> simp [hp]

lemma insertEntries_valid (es : MorseMap) :
    ∀ t, es.all (fun e => validCode e.2) = true →
      insertEntries t es = Except.ok (fun j => Option.elim (lookupLast es j) (t j) some) := by
  induction es with
  | nil => intro t _; simp [insertEntries, lookupLast, lookupFrom]
  | cons e es ih =>
      intro t hv
      rcases (by simpa [List.all_cons] using hv :
        validCode e.2 = true ∧ es.all (fun e => validCode e.2) = true) with ⟨hve, hves⟩
      have hco : codeIndex e.2 = Except.ok (walkIndex e.2) :=
        codeIndexFrom_valid e.2 0 hve
      simp only [insertEntries, hco]
      rw [ih _ hves]
      congr 1
      funext j
      have hcons : lookupLast (e :: es) j =
          Option.elim (lookupLast es j) (if j = walkIndex e.2 then some e.1 else none) some := by
        rw [lookupLast, show lookupFrom none (e :: es) j =
          lookupFrom (if j = walkIndex e.2 then some e.1 else none) es j from by
            simp [lookupFrom], lookupFrom_elim]
      rw [hcons]
      cases h : lookupLast es j <;> by_cases hp : j = walkIndex e.2 <;> simp [hp]

/-- C8: `installMap` is fatal exactly on invalid symbols, and tolerant of
duplicates: it returns an error for every table containing a code with a
symbol other than dot or dash, while for a table of valid codes it never
errors — even with duplicate code assignments — and the installed tree holds,
at every index, the character of the last entry (in table iteration order)
whose code walks to that index (last write wins). -/
theorem c8_invalid_fatal_duplicate_overwrites :
    (∀ map : MorseMap, (∃ e ∈ map, validCode e.2 = false) →
      (installMap map).isOk = false) ∧
    (∀ map : MorseMap, (∀ e ∈ map, validCode e.2 = true) →
      installMap map = Except.ok (fun j => lookupLast map j)) := by
  constructor
  · intro map h
    rw [installMap, insertEntries_isOk]
    rcases h with ⟨e, hmem, hval⟩
    exact List.all_eq_false.mpr ⟨e, hmem, by simp [hval]⟩
  · intro map h
    rw [installMap, insertEntries_valid _ _ (List.all_eq_true.mpr (by
      intro e he; simpa using h e he))]
    congr 1
    funext j
    cases hl : lookupLast map j <;> simp

/-- C8 witness: a table whose only code contains the invalid symbol x fails
to install, while a table assigning the same code (a single dot) to A and
then X installs successfully and stores X — the later entry — at the dot
index. -/
theorem c8_invalid_fatal_duplicate_overwrites_witness :
    ((∃ e ∈ [(('X' : Char), ['x'])], validCode e.2 = false) ∧
      (installMap [(('X' : Char), ['x'])]).isOk = false) ∧
    ((∀ e ∈ [(('A' : Char), ['.']), (('X' : Char), ['.'])], validCode e.2 = true) ∧
      installMap [(('A' : Char), ['.']), (('X' : Char), ['.'])] =
        Except.ok (fun j => lookupLast [(('A' : Char), ['.']), (('X' : Char), ['.'])] j)) ∧
    lookupLast [(('A' : Char), ['.']), (('X' : Char), ['.'])] (walkIndex ['.']) = some 'X' :=
  ⟨⟨by decide, c8_invalid_fatal_duplicate_overwrites.1 _ (by decide)⟩,
   ⟨by decide, c8_invalid_fatal_duplicate_overwrites.2 _ (by decide)⟩,
   by decide⟩

/-- The tree-install method as seen from an engine: the source builds the
dense array in a local variable and assigns `this.tree` only on the last
line, so on an invalid-symbol exception the engine keeps its old tree; the
embedding returns the unchanged state together with the error. -/
def installMapState (s : DecState) (map : MorseMap) : DecState × Option String :=
  match installMap map with
  | Except.ok t => ({ s with tree := t }, none)
  | Except.error e => (s, some e)

/-- C10: `installMap` is atomic on error — whenever the supplied table
contains a code with an invalid symbol, the call reports the error and the
engine state (in particular its previously installed tree) is completely
unchanged. -/
theorem c10_install_map_atomic (s : DecState) (map : MorseMap)
    (h : ∃ e ∈ map, validCode e.2 = false) :
    (installMapState s map).2.isSome = true ∧ (installMapState s map).1 = s := by
  have hok : (installMap map).isOk = false := by
    rw [installMap, insertEntries_isOk]
    rcases h with ⟨e, hmem, hval⟩
    exact List.all_eq_false.mpr ⟨e, hmem, by simp [hval]⟩
  rcases hi : installMap map with msg | t
  · simp [installMapState, hi]
  · rw [hi] at hok
    simp [Except.isOk, Except.toBool] at hok

/-- C10 witness: installing a table with the invalid code x onto an engine
mid-traversal reports the error and leaves the state untouched. -/
theorem c10_install_map_atomic_witness :
    (∃ e ∈ [(('X' : Char), ['x'])], validCode e.2 = false) ∧
    (installMapState ⟨defaultTree, 5⟩ [(('X' : Char), ['x'])]).2.isSome = true ∧
    (installMapState ⟨defaultTree, 5⟩ [(('X' : Char), ['x'])]).1 = ⟨defaultTree, 5⟩ :=
  ⟨by decide, c10_install_map_atomic ⟨defaultTree, 5⟩ _ (by decide)⟩

/-- The states of the straight-key engine. -/
inductive SState
  | idle
  | on
  | code
  | word
  deriving DecidableEq

/-- Callback events fired during a call into an engine, in firing order:
the on-callback, the off-callback, and the emit-callback with its
character. -/
inductive Ev
  | onCb
  | offCb
  | emit (c : Char)
  deriving DecidableEq

/-- The source line `if (ch) this.emitcallback(ch)`: emit the character when
one is present (decoded characters are nonempty strings, hence truthy). -/
def emitChar (o : Option Char) : List Ev :=
  match o with
  | some c => [Ev.emit c]
  | none => []

/-- The state of `MorseDecodeStraight`: the shared tree and traversal index,
the timestamp of the last transition, the logical state, the pending gap
timer (the delay it was armed with, `none` when cancelled), and the dit
duration in milliseconds. -/
structure Straight where
  tree : Nat → Option Char
  index : Nat
  lastTime : Rat
  sstate : SState
  offTimer : Option Rat
  ditDuration : Rat

/-- Source method setWPM: the dit duration derived from words per minute. -/
def wpmDit (wpm : Rat) : Rat := 1200 / wpm

/-- Source method MorseDecodeStraight.input, embedded as a function from
the engine state, the pressed flag and the current time to the new state and
the list of callback events fired.  A press first cancels any pending gap
timer; the four state branches then follow the source line by line (in the
`on` state the 3-dit timer is armed whether or not the event is a release). -/
def straightInput (s0 : Straight) (pressed : Bool) (now : Rat) : Straight × List Ev :=
  let duration := now - s0.lastTime
  let s := if pressed then { s0 with offTimer := none } else s0
  match s.sstate with
  | SState.idle =>
      if pressed then ({ s with sstate := SState.on, lastTime := now }, [Ev.onCb])
      else (s, [])
  | SState.on =>
      if pressed then
        ({ s with offTimer := some (s.ditDuration * 3) }, [])
      else
        let s1 := if duration < s.ditDuration * 2
                  then { s with index := commitDot s.index }
                  else { s with index := commitDash s.index }
        ({ s1 with sstate := SState.code, lastTime := now,
                   offTimer := some (s1.ditDuration * 3) }, [Ev.offCb])
  | SState.code =>
      let p1 := if s.ditDuration * 3 ≤ duration then
                  ({ s with index := 0, sstate := SState.word,
                            offTimer := some (s.ditDuration * 7 - duration) },
                   emitChar (s.tree s.index))
                else (s, ([] : List Ev))
      let p2 := if s.ditDuration * 7 ≤ duration then
                  ({ p1.1 with sstate := SState.idle }, p1.2 ++ [Ev.emit ' '])
                else p1
      if pressed then
        ({ p2.1 with sstate := SState.on, lastTime := now }, p2.2 ++ [Ev.onCb])
      else p2
  | SState.word =>
      let p2 := if s.ditDuration * 7 ≤ duration then
                  ({ s with sstate := SState.idle }, [Ev.emit ' '])
                else (s, ([] : List Ev))
      if pressed then
        ({ p2.1 with sstate := SState.on, lastTime := now }, p2.2 ++ [Ev.onCb])
      else p2

/-- C3: in state `on`, a key-up after held duration d commits a dot when
d < 2×ditDuration and a dash otherwise, transitions to `code`, records the
timestamp, fires the off-callback (and nothing else), and arms the gap timer
for 3×ditDuration. -/
theorem c3_straight_on_keyup (s : Straight) (now : Rat)
    (h : s.sstate = SState.on) :
    (straightInput s false now).1.index =
      (if now - s.lastTime < s.ditDuration * 2 then commitDot s.index
       else commitDash s.index) ∧
    (straightInput s false now).1.sstate = SState.code ∧
    (straightInput s false now).1.lastTime = now ∧
    (straightInput s false now).2 = [Ev.offCb] ∧
    (straightInput s false now).1.offTimer = some (s.ditDuration * 3) := by
  by_cases hd : now - s.lastTime < s.ditDuration * 2 <;>
    simp [straightInput, h, hd]

/-- C3 witness: at WPM 20 the dit duration is 60 ms; from state `on` entered
at time 0, a release at 50 ms (held < 120 ms) commits a dot, and a release
at 150 ms commits a dash; both enter `code`, fire only the off-callback and
arm the 3-dit (180 ms) gap timer. -/
theorem c3_straight_on_keyup_witness :
    (Straight.mk defaultTree 0 0 SState.on none (wpmDit 20)).sstate = SState.on ∧
    (straightInput (Straight.mk defaultTree 0 0 SState.on none (wpmDit 20)) false 50).1.index
      = commitDot 0 ∧
    (straightInput (Straight.mk defaultTree 0 0 SState.on none (wpmDit 20)) false 150).1.index
      = commitDash 0 ∧
    (straightInput (Straight.mk defaultTree 0 0 SState.on none (wpmDit 20)) false 50).1.sstate
      = SState.code ∧
    (straightInput (Straight.mk defaultTree 0 0 SState.on none (wpmDit 20)) false 50).2
      = [Ev.offCb] ∧
    (straightInput (Straight.mk defaultTree 0 0 SState.on none (wpmDit 20)) false 50).1.offTimer
      = some 180 := by
  have h50 := c3_straight_on_keyup (Straight.mk defaultTree 0 0 SState.on none (wpmDit 20)) 50 rfl
  have h150 := c3_straight_on_keyup (Straight.mk defaultTree 0 0 SState.on none (wpmDit 20)) 150 rfl
  refine ⟨rfl, ?_, ?_, h50.2.1, h50.2.2.2.1, ?_⟩
  · rw [h50.1, if_pos (by norm_num [wpmDit])]
  · rw [h150.1, if_neg (by norm_num [wpmDit])]
  · rw [h50.2.2.2.2]
    norm_num [wpmDit]

/-- C4: in state `code`, a single non-press event (such as the fired gap
timer) whose elapsed silence is at least 7 dits emits the buffered character
(when one is stored at the current index) followed by a word-space, in that
order and within the one invocation, and leaves the engine in `idle` with
the index reset; when the silence is at least 3 dits but under 7 dits it
emits only the buffered character, moves to `word`, resets the index and
re-arms the timer for the remaining time to the 7-dit threshold. -/
theorem c4_straight_code_gaps (s : Straight) (now : Rat)
    (hst : s.sstate = SState.code) (hdit : 0 < s.ditDuration) :
    (s.ditDuration * 7 ≤ now - s.lastTime →
      (straightInput s false now).2 = emitChar (s.tree s.index) ++ [Ev.emit ' '] ∧
      (straightInput s false now).1.sstate = SState.idle ∧
      (straightInput s false now).1.index = 0) ∧
    (s.ditDuration * 3 ≤ now - s.lastTime → now - s.lastTime < s.ditDuration * 7 →
      (straightInput s false now).2 = emitChar (s.tree s.index) ∧
      (straightInput s false now).1.sstate = SState.word ∧
      (straightInput s false now).1.index = 0 ∧
      (straightInput s false now).1.offTimer =
        some (s.ditDuration * 7 - (now - s.lastTime))) := by
  constructor
  · intro h7
    have h3 : s.ditDuration * 3 ≤ now - s.lastTime := by nlinarith
    simp [straightInput, hst, h3, h7]
  · intro h3 h7
    have hn : ¬ (s.ditDuration * 7 ≤ now - s.lastTime) := not_le.mpr h7
    simp [straightInput, hst, h3, hn]

/-- C4 witness: with dit 60 ms and the dot for E buffered (index 1) since
time 0, the event at 420 ms (7 dits) emits E then a word-space and idles,
while the event at 180 ms (3 dits) emits only E, moves to `word` and re-arms
the timer for the remaining 240 ms. -/
theorem c4_straight_code_gaps_witness :
    (Straight.mk defaultTree 1 0 SState.code none 60).sstate = SState.code ∧
    (0 : Rat) < (Straight.mk defaultTree 1 0 SState.code none 60).ditDuration ∧
    (straightInput (Straight.mk defaultTree 1 0 SState.code none 60) false 420).2
      = [Ev.emit 'E', Ev.emit ' '] ∧
    (straightInput (Straight.mk defaultTree 1 0 SState.code none 60) false 420).1.sstate
      = SState.idle ∧
    (straightInput (Straight.mk defaultTree 1 0 SState.code none 60) false 180).2
      = [Ev.emit 'E'] ∧
    (straightInput (Straight.mk defaultTree 1 0 SState.code none 60) false 180).1.sstate
      = SState.word ∧
    (straightInput (Straight.mk defaultTree 1 0 SState.code none 60) false 180).1.offTimer
      = some 240 := by
  have h := c4_straight_code_gaps (Straight.mk defaultTree 1 0 SState.code none 60) 420
    rfl (by norm_num)
  have h420 := h.1 (by norm_num)
  have h' := c4_straight_code_gaps (Straight.mk defaultTree 1 0 SState.code none 60) 180
    rfl (by norm_num)
  have h180 := h'.2 (by norm_num) (by norm_num)
  have he : defaultTree 1 = some 'E' := by decide
  refine ⟨rfl, by norm_num, ?_, h420.2.1, ?_, h180.2.1, ?_⟩
  · rw [h420.1]
    simp [emitChar, he]
  · rw [h180.1]
    simp [emitChar, he]
  · rw [h180.2.2.2]
    norm_num

/-- The states of the iambic keyer engine. -/
inductive IState
  | idle
  | holdDot
  | holdDash
  | holdBoth
  | code
  | word
  deriving DecidableEq

/-- The source test `this.state.startsWith("hold")`. -/
def isHold : IState → Bool
  | IState.holdDot => true
  | IState.holdDash => true
  | IState.holdBoth => true
  | _ => false

/-- The state of `MorseDecodeIambic`: tree, traversal index, last transition
timestamp, logical state, pending gap timer, pending generator timer (the
delay it was armed with and the element argument captured by its closure),
the mid-cycle flag, and the dit duration. -/
structure Iambic where
  tree : Nat → Option Char
  index : Nat
  lastTime : Rat
  sstate : IState
  offTimer : Option Rat
  onTimer : Option (Rat × Bool)
  ringing : Bool
  ditDuration : Rat

/-- The on-half body of `repeatDitDot` for element `d` (true = dot): fire the
on-callback, commit the element, and schedule the next half after one dit
for a dot and three dits for a dash, passing `d` to the next call. -/
def ditOn (s : Iambic) (d : Bool) : Iambic × List Ev :=
  ({ s with index := if d then commitDot s.index else commitDash s.index,
            onTimer := some (if d then s.ditDuration else s.ditDuration * 3, d) },
   [Ev.onCb])

/-- Source method repeatDitDot: toggle the mid-cycle flag; on the on-half,
pick the element from the current hold state (both paddles alternate,
otherwise the held paddle), fire the on-callback, commit and reschedule —
unless the state is no longer a hold state, in which case the generator
self-terminates silently; on the off-half, record the timestamp, fire the
off-callback, and reschedule after one dit while still holding, else
terminate. -/
def repeatDitDot (s0 : Iambic) (dit : Bool) (now : Rat) : Iambic × List Ev :=
  let s := { s0 with ringing := !s0.ringing }
  if s.ringing then
    match s.sstate with
    | IState.holdBoth => ditOn s (!dit)
    | IState.holdDot => ditOn s true
    | IState.holdDash => ditOn s false
    | _ => ({ s with onTimer := none, ringing := false }, [])
  else
    let s1 := { s with lastTime := now }
    if isHold s1.sstate then
      ({ s1 with onTimer := some (s1.ditDuration, dit) }, [Ev.offCb])
    else
      ({ s1 with onTimer := none, ringing := false }, [Ev.offCb])

/-- Source method startRepeatDitDot: start the generator only when no
generator timer is pending. -/
def startRepeatDitDot (s : Iambic) (dit : Bool) (now : Rat) : Iambic × List Ev :=
  match s.onTimer with
  | none => repeatDitDot s dit now
  | some _ => (s, [])

/-- The shared paddle-press tail of the `idle`, `code` and `word` branches:
enter the hold state for the pressed paddle and start the generator with
whether the new state is the dot hold. -/
def pressHold (s : Iambic) (key : Char) (now : Rat) : Iambic × List Ev :=
  let s1 := { s with sstate := if key == '.' then IState.holdDot else IState.holdDash }
  startRepeatDitDot s1 (s1.sstate == IState.holdDot) now

/-- Source method MorseDecodeIambic.input: a press first cancels the gap
timer; `idle` starts a hold on press; the hold states handle squeeze
entry/fallback and release-to-`code` (arming a 7-dit timer); `code` and
`word` perform the gap checks guarded by the mid-cycle flag, then handle a
new press by re-entering a hold state. -/
def iambicInput (s0 : Iambic) (key : Char) (pressed : Bool) (now : Rat) :
    Iambic × List Ev :=
  let duration := now - s0.lastTime
  let s := if pressed then { s0 with offTimer := none } else s0
  match s.sstate with
  | IState.idle =>
      if pressed then pressHold s key now else (s, [])
  | IState.holdDot | IState.holdDash | IState.holdBoth =>
      if pressed then
        let st := if s.sstate = IState.holdDot ∧ key = '-' then IState.holdBoth
                  else if s.sstate = IState.holdDash ∧ key = '.' then IState.holdBoth
                  else s.sstate
        ({ s with sstate := st }, [])
      else
        let st := if (key = '.' ∧ s.sstate = IState.holdDot) ∨
                     (key = '-' ∧ s.sstate = IState.holdDash) then IState.code
                  else if s.sstate = IState.holdBoth ∧ key = '.' then IState.holdDash
                  else if s.sstate = IState.holdBoth ∧ key = '-' then IState.holdDot
                  else s.sstate
        let s1 := { s with sstate := st }
        if st = IState.code then
          ({ s1 with offTimer := some (s1.ditDuration * 7) }, [])
        else (s1, [])
  | IState.code =>
      let p1 := if s.ringing = false ∧ s.ditDuration * 3 ≤ duration then
                  ({ s with index := 0, sstate := IState.word,
                            offTimer := some (s.ditDuration * 7 - duration) },
                   emitChar (s.tree s.index))
                else (s, ([] : List Ev))
      let p2 := if s.ringing = false ∧ s.ditDuration * 7 ≤ duration then
                  ({ p1.1 with sstate := IState.idle }, p1.2 ++ [Ev.emit ' '])
                else p1
      if pressed then
        let r := pressHold p2.1 key now
        (r.1, p2.2 ++ r.2)
      else p2
  | IState.word =>
      let p2 := if s.ringing = false ∧ s.ditDuration * 7 ≤ duration then
                  ({ s with sstate := IState.idle }, [Ev.emit ' '])
                else (s, ([] : List Ev))
      if pressed then
        let r := pressHold p2.1 key now
        (r.1, p2.2 ++ r.2)
      else p2

lemma repeatDitDot_no_emit (s : Iambic) (dit : Bool) (now : Rat) (c : Char) :
    Ev.emit c ∉ (repeatDitDot s dit now).2 := by
  simp only [repeatDitDot]
  split
  · cases hs : ({ s with ringing := !s.ringing } : Iambic).sstate <;> simp [ditOn]
  · split <;> simp

lemma startRepeatDitDot_no_emit (s : Iambic) (dit : Bool) (now : Rat) (c : Char) :
    Ev.emit c ∉ (startRepeatDitDot s dit now).2 := by
  rcases ht : s.onTimer with _ | v
  · simpa [startRepeatDitDot, ht] using repeatDitDot_no_emit s dit now c
  · simp [startRepeatDitDot, ht]

lemma pressHold_no_emit (s : Iambic) (key : Char) (now : Rat) (c : Char) :
    Ev.emit c ∉ (pressHold s key now).2 := by
  simpa [pressHold] using
    startRepeatDitDot_no_emit
      { s with sstate := if key == '.' then IState.holdDot else IState.holdDash }
      (({ s with sstate := if key == '.' then IState.holdDot else IState.holdDash} : Iambic).sstate
        == IState.holdDot) now c

lemma defaultTree_one : defaultTree 1 = some 'E' := by decide

/-- C5: in the `code` and `word` states of the iambic engine, nothing is
emitted while the generator is mid-cycle: any character emitted by a call to
`input` implies the ringing flag was false and the silence was at least 3
dits, and an emitted word-space (when the buffered character itself is not a
space) implies the silence was at least 7 dits. -/
theorem c5_iambic_ring_guard (s : Iambic) (key : Char) (pressed : Bool)
    (now : Rat) (c : Char)
    (hst : s.sstate = IState.code ∨ s.sstate = IState.word)
    (hdit : 0 ≤ s.ditDuration)
    (hmem : Ev.emit c ∈ (iambicInput s key pressed now).2) :
    s.ringing = false ∧ s.ditDuration * 3 ≤ now - s.lastTime ∧
    (c = ' ' → s.tree s.index = some ' ' ∨ s.ditDuration * 7 ≤ now - s.lastTime) := by
  rcases hst with h | h <;>
    rcases ht : s.tree s.index with _ | ch <;>
    cases hring : s.ringing <;>
    by_cases h3 : s.ditDuration * 3 ≤ now - s.lastTime <;>
    by_cases h7 : s.ditDuration * 7 ≤ now - s.lastTime <;>
    cases pressed <;>
    simp [iambicInput, h, hring, h3, h7, ht, emitChar, pressHold_no_emit] at hmem <;>
    first
      | exact ⟨rfl, h3, fun hc => Or.inr h7⟩
      | exact ⟨rfl, h3, fun hc => Or.inl (by rw [← hmem, hc])⟩
      | exact ⟨rfl, by linarith, fun hc => Or.inr h7⟩

/-- C5 witness: for an iambic engine in `code` with the generator silent
(ringing false), the dot for E buffered and 3 dits of silence elapsed, the
letter is emitted, and the guard conditions of the theorem hold at that
input. -/
theorem c5_iambic_ring_guard_witness :
    ((Iambic.mk defaultTree 1 0 IState.code none none false 60).sstate = IState.code ∨
      (Iambic.mk defaultTree 1 0 IState.code none none false 60).sstate = IState.word) ∧
    (0 : Rat) ≤ (Iambic.mk defaultTree 1 0 IState.code none none false 60).ditDuration ∧
    Ev.emit 'E' ∈
      (iambicInput (Iambic.mk defaultTree 1 0 IState.code none none false 60) '.' false 180).2 ∧
    ((Iambic.mk defaultTree 1 0 IState.code none none false 60).ringing = false ∧
     (Iambic.mk defaultTree 1 0 IState.code none none false 60).ditDuration * 3 ≤
       180 - (Iambic.mk defaultTree 1 0 IState.code none none false 60).lastTime ∧
     ('E' = ' ' →
       (Iambic.mk defaultTree 1 0 IState.code none none false 60).tree
         (Iambic.mk defaultTree 1 0 IState.code none none false 60).index = some ' ' ∨
       (Iambic.mk defaultTree 1 0 IState.code none none false 60).ditDuration * 7 ≤
         180 - (Iambic.mk defaultTree 1 0 IState.code none none false 60).lastTime)) := by
  have hmem : Ev.emit 'E' ∈
      (iambicInput (Iambic.mk defaultTree 1 0 IState.code none none false 60) '.' false 180).2 := by
    norm_num [iambicInput, emitChar, defaultTree_one]
  exact ⟨Or.inl rfl, by norm_num, hmem,
    c5_iambic_ring_guard _ '.' false 180 'E' (Or.inl rfl) (by norm_num) hmem⟩

/-- The three engine instances owned by the MorseInput component. -/
structure UIEngines where
  winder : DecState
  straight : Straight
  iambic : Iambic

/-- The input-method select onchange handler of MorseInput.svelte: it calls
`decodeWinder.resetIndex()` and `decodeStraight.resetIndex()` (which only
zero those two traversal indices and discard the returned characters) and
then updates the method; it touches neither the iambic engine nor any
pending timer. -/
def methodSwitch (u : UIEngines) : UIEngines :=
  { u with winder := (resetIndex u.winder).2,
           straight := { u.straight with index := 0 } }

/-- C7 (refuting the claim as the code stands): switching the input method
zeroes only the winder and straight indices; for a concrete engine set in
which the iambic engine holds a partial traversal (index 1) and both timed
engines have pending gap timers, the handler leaves the iambic index at 1
and both timers armed, so a partial iambic traversal and a stale timer
survive the switch. -/
theorem c7_method_switch_leaks :
    (methodSwitch
        (UIEngines.mk ⟨defaultTree, 3⟩
          (Straight.mk defaultTree 2 0 SState.code (some 180) 60)
          (Iambic.mk defaultTree 1 0 IState.code (some 420) none false 60))).winder.index
      = 0 ∧
    (methodSwitch
        (UIEngines.mk ⟨defaultTree, 3⟩
          (Straight.mk defaultTree 2 0 SState.code (some 180) 60)
          (Iambic.mk defaultTree 1 0 IState.code (some 420) none false 60))).straight.index
      = 0 ∧
    (methodSwitch
        (UIEngines.mk ⟨defaultTree, 3⟩
          (Straight.mk defaultTree 2 0 SState.code (some 180) 60)
          (Iambic.mk defaultTree 1 0 IState.code (some 420) none false 60))).iambic.index
      = 1 ∧
    ¬ ((methodSwitch
        (UIEngines.mk ⟨defaultTree, 3⟩
          (Straight.mk defaultTree 2 0 SState.code (some 180) 60)
          (Iambic.mk defaultTree 1 0 IState.code (some 420) none false 60))).iambic.index
      = 0) ∧
    (methodSwitch
        (UIEngines.mk ⟨defaultTree, 3⟩
          (Straight.mk defaultTree 2 0 SState.code (some 180) 60)
          (Iambic.mk defaultTree 1 0 IState.code (some 420) none false 60))).straight.offTimer
      = some 180 ∧
    (methodSwitch
        (UIEngines.mk ⟨defaultTree, 3⟩
          (Straight.mk defaultTree 2 0 SState.code (some 180) 60)
          (Iambic.mk defaultTree 1 0 IState.code (some 420) none false 60))).iambic.offTimer
      = some 420 :=
  ⟨rfl, rfl, rfl, by decide, rfl, rfl⟩

/-- The source lookup `cUpper in DEFAULT_MORSE` followed by `DEFAULT_MORSE[cUpper]` of the
source: look the character up in the default table. -/
def morseLookup (c : Char) : Option (List Char) :=
  (DEFAULT_MORSE.find? (fun e => e.1 == c)).map (fun e => e.2)

/-- The per-symbol cost of `wpmCalc`: a dot is 1 dit, a dash 3 dits (the
codes of the table contain nothing else). -/
def symbolDits (c : Char) : Int := if c == '.' then 1 else if c == '-' then 3 else 0

/-- The per-character cost of `wpmCalc`: for a character whose uppercase is
in the table, the weighted code length plus one intra-character gap per
symbol boundary; otherwise 7 dits for a space and 0 (with a logged warning)
for anything else. -/
def charDits (c : Char) : Int :=
  match morseLookup c.toUpper with
  | some code => code.foldl (fun a s => a + symbolDits s) 0 + ((code.length : Int) - 1)
  | none => if c == ' ' then 7 else 0

/-- The per-word cost of `wpmCalc`: the character costs plus 3 dits per
inter-character gap. -/
def wordDits (w : List Char) : Int :=
  w.foldl (fun a c => a + charDits c) 0 + ((w.length : Int) - 1) * 3

/-- The total dit count of `wpmCalc`: word costs plus 7 dits of inter-word
gap per word in the batch (including a trailing one). -/
def ditCount (words : List (List Char)) : Int :=
  words.foldl (fun a w => a + wordDits w) 0 + (words.length : Int) * 7

/-- Source function wpmCalc: total dits over elapsed seconds, converted to
words per minute at 50 dits per word. -/
def wpmCalc (words : List (List Char)) (seconds : Rat) : Rat :=
  ((ditCount words : Rat) / seconds) * 60 / 50

/-- Modelled from the claim text for comparison: the per-character cost with
characters absent from the symbol table contributing 0 dits (no special
case for the space character). -/
def charDitsSpec (c : Char) : Int :=
  match morseLookup c.toUpper with
  | some code => code.foldl (fun a s => a + symbolDits s) 0 + ((code.length : Int) - 1)
  | none => 0

/-- The claimed per-word cost built on `charDitsSpec`. -/
def wordDitsSpec (w : List Char) : Int :=
  w.foldl (fun a c => a + charDitsSpec c) 0 + ((w.length : Int) - 1) * 3

/-- The claimed total dit count built on `wordDitsSpec`. -/
def ditCountSpec (words : List (List Char)) : Int :=
  words.foldl (fun a w => a + wordDitsSpec w) 0 + (words.length : Int) * 7

/-- The claimed WPM formula built on `ditCountSpec`. -/
def wpmCalcSpec (words : List (List Char)) (seconds : Rat) : Rat :=
  ((ditCountSpec words : Rat) / seconds) * 60 / 50

/-- C9 counterexample: the claim says characters absent from the symbol
table contribute 0 dits, but the code gives the space character (absent from
the table) 7 dits: on the single word consisting of one space, the code
computes 14 total dits and the claimed formula 7, so the two WPM values
differ. -/
theorem c9_counterexample :
    wpmCalc [[' ']] 60 = 14 / 50 ∧
    wpmCalcSpec [[' ']] 60 = 7 / 50 ∧
    ¬ (wpmCalc [[' ']] 60 = wpmCalcSpec [[' ']] 60) := by
  have h1 : ditCount [[' ']] = 14 := by decide
  have h2 : ditCountSpec [[' ']] = 7 := by decide
  refine ⟨?_, ?_, ?_⟩
  · unfold wpmCalc; rw [h1]; norm_num
  · unfold wpmCalcSpec; rw [h2]; norm_num
  · unfold wpmCalc wpmCalcSpec; rw [h1, h2]; norm_num

lemma charDits_eq_spec (c : Char) (hc : c ≠ ' ') : charDits c = charDitsSpec c := by
  unfold charDits charDitsSpec
  cases morseLookup c.toUpper <;> simp [hc]

lemma foldl_charDits_eq (w : List Char) (h : ' ' ∉ w) :
    ∀ a : Int, w.foldl (fun a c => a + charDits c) a =
      w.foldl (fun a c => a + charDitsSpec c) a := by
  induction w with
  | nil => intro a; rfl
  | cons c w ih =>
      intro a
      rcases (by simpa using h : ¬ (' ' = c ∨ ' ' ∈ w)) with hcw
      push_neg at hcw
      simp only [List.foldl_cons]
      rw [charDits_eq_spec c (fun e => hcw.1 e.symm)]
      exact ih hcw.2 _

lemma wordDits_eq_spec (w : List Char) (h : ' ' ∉ w) : wordDits w = wordDitsSpec w := by
  unfold wordDits wordDitsSpec
  rw [foldl_charDits_eq w h]

lemma foldl_wordDits_eq (words : List (List Char)) (h : ∀ w ∈ words, ' ' ∉ w) :
    ∀ a : Int, words.foldl (fun a w => a + wordDits w) a =
      words.foldl (fun a w => a + wordDitsSpec w) a := by
  induction words with
  | nil => intro a; rfl
  | cons w ws ih =>
      intro a
      simp only [List.foldl_cons]
      rw [wordDits_eq_spec w (h w (by simp))]
      exact ih (fun v hv => h v (by simp [hv])) _

lemma ditCount_eq_spec (words : List (List Char)) (h : ∀ w ∈ words, ' ' ∉ w) :
    ditCount words = ditCountSpec words := by
  unfold ditCount ditCountSpec
  rw [foldl_wordDits_eq words h]

/-- C9 amended: the claimed dit-cost formula agrees with `wpmCalc` on every
batch of words containing no space character (characters absent from the
table other than the space contribute 0 dits; a space contributes 7), and on
the PARIS calibration word over 60 seconds `wpmCalc` is exactly 1. -/
theorem c9_wpm_calc_amended :
    (∀ (words : List (List Char)) (seconds : Rat),
      (∀ w ∈ words, ' ' ∉ w) → wpmCalc words seconds = wpmCalcSpec words seconds) ∧
    wpmCalc [['p', 'a', 'r', 'i', 's']] 60 = 1 := by
  constructor
  · intro words seconds h
    unfold wpmCalc wpmCalcSpec
    rw [ditCount_eq_spec words h]
  · have h1 : ditCount [['p', 'a', 'r', 'i', 's']] = 50 := by decide
    unfold wpmCalc
    rw [h1]
    norm_num

/-- C9 witness: the PARIS batch contains no space, so the code formula and
the claimed formula coincide on it. -/
theorem c9_wpm_calc_amended_witness :
    (∀ w ∈ [['p', 'a', 'r', 'i', 's']], ' ' ∉ w) ∧
    wpmCalc [['p', 'a', 'r', 'i', 's']] 60 = wpmCalcSpec [['p', 'a', 'r', 'i', 's']] 60 :=
  ⟨by decide, c9_wpm_calc_amended.1 [['p', 'a', 'r', 'i', 's']] 60 (by decide)⟩

end Morse
